import Mathlib

/-
Shallow embedding of the FASTA decoder/encoder from mnsmar/fasta (fasta.go).

Bytes of the underlying stream are modelled as `Char`s in a `List Char`.
`bufio.Reader.ReadBytes('\n')` is modelled by `splitLine`, which returns the
line up to and including the delimiter, the remaining input, and an EOF flag
(the flag is `true` exactly when no delimiter was found, which is when
`ReadBytes` returns `io.EOF` together with the bytes read so far).
`bytes.TrimSpace` is modelled by `trimSpace` over the ASCII/Latin-1 white
space characters recognised by Go's `unicode.IsSpace`.

The reader state `Reader` models the Go struct: the buffered remaining input
(field `r`), the sticky-EOF flag (`err == io.EOF` becomes `err : Bool`) and
the in-progress record pointer (`rec : Option Record`, `none` for `nil`).
One call to `Reader.Read` becomes `Reader.read`; the loop inside it is
`readGo`, written with an explicit fuel argument so that every definition is
structurally recursive and computable.  `Reader.read` supplies
`input.length + 1` fuel, which is always sufficient because every loop
iteration consumes a full line containing at least the `'\n'` byte; the
fuel-0 branch is unreachable from `Reader.read` (all lemmas below carry the
bound `input.length < fuel`).

A Go call `Read()` returning the pair `(*Record, error)` is modelled by
`ReadOutcome.ok rec err` with `rec : Option Record` and `err : Option RError`
(`none` is Go's `nil`).  The nil-pointer dereference that the Go code
performs when it appends leftover bytes to a `nil` in-progress record is
modelled by the dedicated outcome `ReadOutcome.crash`.
-/

namespace Fasta

/-- White space characters stripped by Go's `bytes.TrimSpace`
(`unicode.IsSpace`), restricted to the one-byte/Latin-1 range. -/
def isSpace (c : Char) : Bool :=
  c = ' ' || c = '\t' || c = '\n' || c = '\x0b' || c = '\x0c' || c = '\r' ||
  c = '\u0085' || c = ' '

/-- Strip trailing white space. -/
def trimRight (l : List Char) : List Char :=
  (l.reverse.dropWhile isSpace).reverse

/-- Model of `bytes.TrimSpace`: strip leading and trailing white space. -/
def trimSpace (l : List Char) : List Char :=
  (trimRight l).dropWhile isSpace

/-- Model of `bufio.Reader.ReadBytes('\n')` on the remaining input: returns
the line up to and including the first `'\n'`, the rest of the input, and
`true` iff no `'\n'` was found (the `io.EOF` case, where the line is the
whole remaining input and the rest is empty). -/
def splitLine : List Char → List Char × List Char × Bool
  | [] => ([], [], true)
  | c :: rest =>
    if c = '\n' then ([c], rest, false)
    else
      match splitLine rest with
      | (line, r, e) => (c :: line, r, e)

/-- `Record` from fasta.go: `Header string; Sequence []byte`. -/
structure Record where
  Header : List Char
  Sequence : List Char
deriving DecidableEq, Repr

/-- `func (rec *Record) Name() string { return rec.Header }` -/
def Record.Name (rec : Record) : List Char := rec.Header

/-- `func (rec *Record) Seq() []byte { return rec.Sequence }` -/
def Record.Seq (rec : Record) : List Char := rec.Sequence

/-- The errors a `Read` call can produce: `io.EOF`, or the format error
built by `errors.New` (carrying its message). -/
inductive RError where
  | eof
  | formatErr (msg : String)
deriving DecidableEq, Repr

/-- The message of the single format error in fasta.go. -/
def fmtMsg : String := "fasta: format error: sequence before header"

/-- Result of one `Read` call: the returned `(*Record, error)` pair, or a
runtime crash (`crash` models the nil-pointer dereference the Go code hits
when it appends to a `nil` in-progress record). -/
inductive ReadOutcome where
  | ok (rec : Option Record) (err : Option RError)
  | crash
deriving DecidableEq, Repr

/-- The `Reader` struct from fasta.go: remaining buffered input, the sticky
`err == io.EOF` flag, and the in-progress record (the Go field is called
`rec`; that name is taken by the auto-generated recursor, hence `irec`). -/
structure Reader where
  input : List Char
  err : Bool
  irec : Option Record
deriving DecidableEq, Repr

/-- The `for` loop body of `Reader.Read` (fasta.go lines 55-90), with fuel
making the recursion structural.  Each iteration reads one line:

* `ReadBytes` fails (no `'\n'` found, `io.EOF`): if leftover bytes exist
  they are appended to the in-progress record — a nil dereference (`crash`)
  when there is none; then `r.err = io.EOF` is set and `(r.rec, nil)` is
  returned (which is `(nil, nil)` when no record is in progress).
* Otherwise the line is trimmed; blank lines are skipped; a non-`'>'` line
  is appended to the in-progress record (format error if there is none); a
  `'>'` line starts a new record and returns the previous one if any. -/
def readGo : Nat → List Char → Option Record → ReadOutcome × Reader
  | 0, input, rec => (ReadOutcome.crash, Reader.mk input false rec)
  | f+1, input, rec =>
    match splitLine input with
    | (line, rest, true) =>
      match rec with
      | none =>
        if line = [] then (ReadOutcome.ok none none, Reader.mk rest true none)
        else (ReadOutcome.crash, Reader.mk rest false none)
      | some rc =>
        if line = [] then (ReadOutcome.ok (some rc) none, Reader.mk rest true (some rc))
        else
          (ReadOutcome.ok (some ⟨rc.Header, rc.Sequence ++ line⟩) none,
            Reader.mk rest true (some ⟨rc.Header, rc.Sequence ++ line⟩))
    | (line, rest, false) =>
      if trimSpace line = [] then readGo f rest rec
      else if (trimSpace line).head? = some '>' then
        match rec with
        | none => readGo f rest (some ⟨(trimSpace line).tail, []⟩)
        | some rc =>
          (ReadOutcome.ok (some rc) none, Reader.mk rest false (some ⟨(trimSpace line).tail, []⟩))
      else
        match rec with
        | none =>
          (ReadOutcome.ok none (some (RError.formatErr fmtMsg)), Reader.mk rest false none)
        | some rc => readGo f rest (some ⟨rc.Header, rc.Sequence ++ trimSpace line⟩)

/-- `func (r *Reader) Read() (*Record, error)`: the sticky-EOF guard
(fasta.go lines 51-54) followed by the reading loop. -/
def Reader.read (r : Reader) : ReadOutcome × Reader :=
  if r.err then (ReadOutcome.ok none (some RError.eof), r)
  else readGo (r.input.length + 1) r.input r.irec

/-- `func NewReader(f io.Reader) *Reader`: fresh reader over the stream. -/
def NewReader (input : List Char) : Reader := Reader.mk input false none

/-- Measure used to justify that repeated `read` calls terminate. -/
def measureR (r : Reader) : Nat := r.input.length + (if r.err then 0 else 1)

/-- Repeatedly call `read`, collecting the returned records, until a call
returns no record or a non-nil error (or crashes); fueled version. -/
def readAllGo : Nat → Reader → List Record
  | 0, _ => []
  | f+1, r =>
    match Reader.read r with
    | (ReadOutcome.ok (some rc) none, r2) => rc :: readAllGo f r2
    | _ => []

/-- All records a client obtains by calling `Read` in a loop until it
returns an error or no record (as in the package's usage example). -/
def readAll (r : Reader) : List Record := readAllGo (r.input.length + 2) r

/-- The reader state after `n` further calls to `read`. -/
def readStateN : Nat → Reader → Reader
  | 0, r => r
  | n+1, r => readStateN n (Reader.read r).2

/-- `Writer` struct from fasta.go (the byte sink is kept implicit: `write`
returns the bytes placed on the sink together with the byte count). -/
structure Writer where
  width : Int
deriving DecidableEq, Repr

/-- `func NewWriter(w io.Writer, width int) *Writer`: width 0 is coerced
to 1. -/
def NewWriter (width : Int) : Writer :=
  if width = 0 then ⟨1⟩ else ⟨width⟩

/-- The data-writing loop of `Writer.Write`: before the byte at index `i`,
a line break is written whenever `i % width == 0` (Go's `%` on `int` is
truncated division, i.e. `Int.tmod`). -/
def writeSeqAux (width : Int) : List Char → Int → List Char
  | [], _ => []
  | c :: rest, i =>
    (if i.tmod width = 0 then ['\n'] else []) ++ c :: writeSeqAux width rest (i + 1)

/-- `func (w *Writer) Write(s Sequence) (n int, err error)`: writes
`">" + s.Name()`, then the wrapped sequence, then one final line break,
and returns the bytes written and their count (the modelled sink never
fails, so the count is the length of the output). -/
def Writer.write (w : Writer) (s : Record) : List Char × Nat :=
  let out := ('>' :: s.Name) ++ writeSeqAux w.width s.Seq 0 ++ ['\n']
  (out, out.length)

/-- Render a list of `'\n'`-free lines as a byte stream, each line
terminated by `'\n'`. -/
def render (lines : List (List Char)) : List Char :=
  (lines.map (fun l => l ++ ['\n'])).flatten

/-- Reference decoding of a line list, written from the spec's description:
blank lines (after trimming) are skipped; a `'>'` line seals the record in
progress (emitting it in input order) and starts a new one named by the
text after the marker; any other line's whitespace-trimmed bytes are
appended to the record in progress with no separator; data before the
first header aborts decoding (format error); end of input seals the last
record. -/
def collect : List (List Char) → Option Record → List Record
  | [], none => []
  | [], some rc => [rc]
  | l :: rest, rec =>
    if trimSpace l = [] then collect rest rec
    else if (trimSpace l).head? = some '>' then
      match rec with
      | none => collect rest (some ⟨(trimSpace l).tail, []⟩)
      | some rc => rc :: collect rest (some ⟨(trimSpace l).tail, []⟩)
    else
      match rec with
      | none => []
      | some rc => collect rest (some ⟨rc.Header, rc.Sequence ++ trimSpace l⟩)

/-- Continuation-passing variant of `collect`: processes the lines and then
hands the final in-progress record to the continuation `k` (used to reason
about a rendered prefix followed by arbitrary trailing input). -/
def collectK : List (List Char) → Option Record → (Option Record → List Record) → List Record
  | [], rec, k => k rec
  | l :: rest, rec, k =>
    if trimSpace l = [] then collectK rest rec k
    else if (trimSpace l).head? = some '>' then
      match rec with
      | none => collectK rest (some ⟨(trimSpace l).tail, []⟩) k
      | some rc => rc :: collectK rest (some ⟨(trimSpace l).tail, []⟩) k
    else
      match rec with
      | none => []
      | some rc => collectK rest (some ⟨rc.Header, rc.Sequence ++ trimSpace l⟩) k

/-- The first line that is non-blank after trimming, if any, is a header
line (no leading sequence data). -/
def noLeadingData : List (List Char) → Bool
  | [] => true
  | l :: rest =>
    if trimSpace l = [] then noLeadingData rest
    else decide ((trimSpace l).head? = some '>')

/-- A line whose trimmed form starts with the `'>'` marker. -/
def isHeaderLine (l : List Char) : Bool :=
  decide ((trimSpace l).head? = some '>')

/-- Number of header lines in the input. -/
def countHeaders (lines : List (List Char)) : Nat :=
  (lines.filter isHeaderLine).length

/-- Reference form of the encoder's wrapping, written from the spec's
words: a line break is placed immediately before the byte at position `i`
whenever `i mod width = 0`, each byte following its break piece. -/
def wrapSpec (width : Int) (data : List Char) : List Char :=
  ((List.range data.length).map (fun (i : Nat) =>
    (if (Int.ofNat i).tmod width = 0 then ['\n'] else []) ++ (data.drop i).take 1)).flatten

/-! ### Properties of `splitLine` (the `ReadBytes('\n')` model) -/

theorem splitLine_no_nl (l : List Char) (h : '\n' ∉ l) : splitLine l = (l, [], true) := by
  induction l with
  | nil => rfl
  | cons c rest ih =>
    simp only [List.mem_cons, not_or] at h
    have hc : ¬(c = '\n') := fun hc => h.1 hc.symm
    simp [splitLine, hc, ih h.2]

theorem splitLine_append (l r : List Char) (h : '\n' ∉ l) :
    splitLine (l ++ '\n' :: r) = (l ++ ['\n'], r, false) := by
  induction l with
  | nil => simp [splitLine]
  | cons c rest ih =>
    simp only [List.mem_cons, not_or] at h
    have hc : ¬(c = '\n') := fun hc => h.1 hc.symm
    simp [splitLine, hc, ih h.2]

theorem splitLine_rest_lt (input : List Char) (h : (splitLine input).2.2 = false) :
    (splitLine input).2.1.length < input.length := by
  induction input with
  | nil => simp [splitLine] at h
  | cons c rest ih =>
    by_cases hc : c = '\n'
    · simp [splitLine, hc]
    · rcases hs : splitLine rest with ⟨line, r, e⟩
      rw [show splitLine (c :: rest) = (c :: line, r, e) by simp [splitLine, hc, hs]] at h ⊢
      simp only at h
      have := ih (by rw [hs]; exact h)
      rw [hs] at this
      simpa using Nat.lt_succ_of_lt this

theorem splitLine_eof (input : List Char) (h : (splitLine input).2.2 = true) :
    splitLine input = (input, [], true) ∧ '\n' ∉ input := by
  induction input with
  | nil => exact ⟨rfl, by simp⟩
  | cons c rest ih =>
    by_cases hc : c = '\n'
    · simp [splitLine, hc] at h
    · rcases hs : splitLine rest with ⟨line, r, e⟩
      rw [show splitLine (c :: rest) = (c :: line, r, e) by simp [splitLine, hc, hs]] at h ⊢
      simp only at h
      rcases ih (by rw [hs]; exact h) with ⟨h1, h2⟩
      rw [hs] at h1
      rcases Prod.mk.injEq .. ▸ h1 with ⟨e1, e2⟩
      constructor
      · simp only [Prod.mk.injEq] at h1
        simp [h1.1, h1.2]
      · simp only [List.mem_cons, not_or]
        exact ⟨fun hh => hc hh.symm, h2⟩

theorem splitLine_not_eof (input : List Char) (h : (splitLine input).2.2 = false) :
    ∃ l, '\n' ∉ l ∧ input = l ++ '\n' :: (splitLine input).2.1 ∧
      splitLine input = (l ++ ['\n'], (splitLine input).2.1, false) := by
  induction input with
  | nil => simp [splitLine] at h
  | cons c rest ih =>
    by_cases hc : c = '\n'
    · refine ⟨[], by simp, ?_, ?_⟩ <;> simp [splitLine, hc]
    · rcases hs : splitLine rest with ⟨line, r, e⟩
      rw [show splitLine (c :: rest) = (c :: line, r, e) by simp [splitLine, hc, hs]] at h ⊢
      simp only at h
      rcases ih (by rw [hs]; exact h) with ⟨l, hl1, hl2, hl3⟩
      rw [hs] at hl2 hl3
      simp only at hl2
      simp only [Prod.mk.injEq] at hl3
      refine ⟨c :: l, ?_, ?_, ?_⟩
      · simp only [List.mem_cons, not_or]
        exact ⟨fun hh => hc hh.symm, hl1⟩
      · simp [hl2]
      · simp [hl3.1, h]

/-! ### Properties of `trimSpace` (the `bytes.TrimSpace` model) -/

theorem isSpace_nl : isSpace '\n' = true := by decide

theorem dropWhile_eq_self_of_head {p : Char → Bool} {l : List Char}
    (h : ∀ c, l.head? = some c → p c = false) : l.dropWhile p = l := by
  cases l with
  | nil => rfl
  | cons a t => simp [List.dropWhile_cons, h a rfl]

theorem head_dropWhile_false {p : Char → Bool} {l : List Char} {c : Char}
    (h : (l.dropWhile p).head? = some c) : p c = false := by
  induction l with
  | nil => simp [List.dropWhile] at h
  | cons a t ih =>
    cases hp : p a with
    | true => exact ih (by rwa [List.dropWhile_cons, if_pos hp] at h)
    | false =>
      rw [List.dropWhile_cons, if_neg (by simp [hp]), List.head?_cons,
        Option.some.injEq] at h
      rwa [← h]

theorem trimRight_append_nl (l : List Char) : trimRight (l ++ ['\n']) = trimRight l := by
  simp [trimRight, List.reverse_append, List.dropWhile_cons, isSpace_nl]

theorem trimSpace_append_nl (l : List Char) : trimSpace (l ++ ['\n']) = trimSpace l := by
  simp [trimSpace, trimRight_append_nl]

theorem mem_of_mem_trimRight {c : Char} {l : List Char} (h : c ∈ trimRight l) : c ∈ l := by
  rw [trimRight, List.mem_reverse] at h
  have := (List.dropWhile_sublist isSpace).subset h
  rwa [List.mem_reverse] at this

theorem mem_of_mem_trimSpace {c : Char} {l : List Char} (h : c ∈ trimSpace l) : c ∈ l := by
  rw [trimSpace] at h
  exact mem_of_mem_trimRight ((List.dropWhile_sublist isSpace).subset h)

theorem trimRight_eq_self {l : List Char}
    (h : ∀ c, l.getLast? = some c → isSpace c = false) : trimRight l = l := by
  rw [trimRight,
    dropWhile_eq_self_of_head (fun c hc => h c (by rwa [List.head?_reverse] at hc)),
    List.reverse_reverse]

theorem trimSpace_eq_self {l : List Char}
    (hh : ∀ c, l.head? = some c → isSpace c = false)
    (hl : ∀ c, l.getLast? = some c → isSpace c = false) :
    trimSpace l = l := by
  rw [trimSpace, trimRight_eq_self hl, dropWhile_eq_self_of_head hh]

theorem trimRight_getLast {l : List Char} {c : Char}
    (h : (trimRight l).getLast? = some c) : isSpace c = false := by
  rw [trimRight, List.getLast?_reverse] at h
  exact head_dropWhile_false h

theorem trimSpace_head {l : List Char} {c : Char}
    (h : (trimSpace l).head? = some c) : isSpace c = false :=
  head_dropWhile_false h

theorem trimSpace_getLast {l : List Char} {c : Char}
    (h : (trimSpace l).getLast? = some c) : isSpace c = false := by
  have hne : trimSpace l ≠ [] := by
    intro h0
    rw [h0] at h
    simp at h
  have h2 : (trimRight l).getLast? = some c := by
    rw [trimSpace] at h hne
    rw [← List.takeWhile_append_dropWhile isSpace (trimRight l),
      List.getLast?_append_of_ne_nil _ hne]
    exact h
  exact trimRight_getLast h2

theorem trimSpace_header (nm : List Char)
    (h : ∀ c, nm.getLast? = some c → isSpace c = false) :
    trimSpace ('>' :: nm) = '>' :: nm := by
  apply trimSpace_eq_self
  · intro c hc
    rw [List.head?_cons, Option.some.injEq] at hc
    rw [← hc]
    decide
  · intro c hc
    rw [List.getLast?_cons] at hc
    cases hnm : nm.getLast? with
    | none =>
      rw [hnm] at hc
      simp only [Option.getD_none, Option.some.injEq] at hc
      rw [← hc]
      decide
    | some d =>
      rw [hnm] at hc
      simp only [Option.getD_some, Option.some.injEq] at hc
      rw [← hc]
      exact h d hnm

/-! ### Fuel irrelevance and stepping lemmas for the reading loop -/

theorem readGo_fuel (f : Nat) : ∀ (g : Nat) (input : List Char) (rec : Option Record),
    input.length < f → input.length < g → readGo f input rec = readGo g input rec := by
  induction f with
  | zero => exact fun g input rec hf _ => absurd hf (by omega)
  | succ f ih =>
    intro g input rec hf hg
    cases g with
    | zero => exact absurd hg (by omega)
    | succ g =>
      rcases hs : splitLine input with ⟨line, rst, eofb⟩
      cases eofb with
      | true => simp only [readGo, hs]
      | false =>
        have hrl : rst.length < input.length := by
          have := splitLine_rest_lt input (by rw [hs])
          rw [hs] at this
          exact this
        simp only [readGo, hs]
        by_cases hb : trimSpace line = []
        · rw [if_pos hb, if_pos hb]
          exact ih g rst rec (by omega) (by omega)
        · rw [if_neg hb, if_neg hb]
          by_cases hh : (trimSpace line).head? = some '>'
          · rw [if_pos hh, if_pos hh]
            cases rec with
            | none => exact ih g rst _ (by omega) (by omega)
            | some rc => rfl
          · rw [if_neg hh, if_neg hh]
            cases rec with
            | none => rfl
            | some rc => exact ih g rst _ (by omega) (by omega)

theorem read_not_err (input : List Char) (rec : Option Record) :
    Reader.read (Reader.mk input false rec) = readGo (input.length + 1) input rec := by
  simp [Reader.read]

theorem read_err (r : Reader) (h : r.err = true) :
    Reader.read r = (ReadOutcome.ok none (some RError.eof), r) := by
  simp [Reader.read, h]

theorem read_empty (rec : Option Record) :
    Reader.read (Reader.mk [] false rec) =
      match rec with
      | none => (ReadOutcome.ok none none, Reader.mk [] true none)
      | some rc => (ReadOutcome.ok (some rc) none, Reader.mk [] true (some rc)) := by
  cases rec <;> rfl

theorem read_last_line (l : List Char) (rec : Option Record) (h0 : '\n' ∉ l) (h1 : l ≠ []) :
    Reader.read (Reader.mk l false rec) =
      match rec with
      | none => (ReadOutcome.crash, Reader.mk [] false none)
      | some rc =>
        (ReadOutcome.ok (some ⟨rc.Header, rc.Sequence ++ l⟩) none,
          Reader.mk [] true (some ⟨rc.Header, rc.Sequence ++ l⟩)) := by
  have hs := splitLine_no_nl l h0
  rw [read_not_err]
  cases rec with
  | none =>
    simp only [readGo, hs]
    rw [if_neg h1]
  | some rc =>
    simp only [readGo, hs]
    rw [if_neg h1]

theorem read_step (l T : List Char) (rec : Option Record) (hl : '\n' ∉ l) :
    Reader.read (Reader.mk (l ++ '\n' :: T) false rec) =
      (if trimSpace l = [] then Reader.read (Reader.mk T false rec)
      else if (trimSpace l).head? = some '>' then
        match rec with
        | none => Reader.read (Reader.mk T false (some ⟨(trimSpace l).tail, []⟩))
        | some rc =>
          (ReadOutcome.ok (some rc) none, Reader.mk T false (some ⟨(trimSpace l).tail, []⟩))
      else
        match rec with
        | none =>
          (ReadOutcome.ok none (some (RError.formatErr fmtMsg)), Reader.mk T false none)
        | some rc =>
          Reader.read (Reader.mk T false (some ⟨rc.Header, rc.Sequence ++ trimSpace l⟩))) := by
  have hs := splitLine_append l T hl
  have hlen : T.length < (l ++ '\n' :: T).length := by
    simp only [List.length_append, List.length_cons]
    omega
  rw [read_not_err]
  simp only [readGo, hs, trimSpace_append_nl]
  by_cases hb : trimSpace l = []
  · rw [if_pos hb, if_pos hb, read_not_err]
    exact readGo_fuel _ _ _ _ (by omega) (by omega)
  · rw [if_neg hb, if_neg hb]
    by_cases hh : (trimSpace l).head? = some '>'
    · rw [if_pos hh, if_pos hh]
      cases rec with
      | none =>
        rw [read_not_err]
        exact readGo_fuel _ _ _ _ (by omega) (by omega)
      | some rc => rfl
    · rw [if_neg hh, if_neg hh]
      cases rec with
      | none => rfl
      | some rc =>
        show readGo (l ++ '\n' :: T).length T (some ⟨rc.Header, rc.Sequence ++ trimSpace l⟩) =
          Reader.read (Reader.mk T false (some ⟨rc.Header, rc.Sequence ++ trimSpace l⟩))
        rw [read_not_err]
        exact readGo_fuel _ _ _ _ (by omega) (by omega)

/-! ### Termination measure for repeated reads -/

theorem readGo_continue (f : Nat) : ∀ (input : List Char) (rec : Option Record)
    (rc : Record) (r2 : Reader), input.length < f →
    readGo f input rec = (ReadOutcome.ok (some rc) none, r2) →
    (r2.err = true ∧ r2.input = []) ∨ (r2.err = false ∧ r2.input.length < input.length) := by
  induction f with
  | zero => exact fun input rec rc r2 hf _ => absurd hf (by omega)
  | succ f ih =>
    intro input rec rc r2 hf heq
    rcases hs : splitLine input with ⟨line, rst, eofb⟩
    cases eofb with
    | true =>
      rcases splitLine_eof input (by rw [hs]) with ⟨h1, _⟩
      rw [hs] at h1
      simp only [Prod.mk.injEq] at h1
      obtain ⟨-, hrst, -⟩ := h1
      cases rec with
      | none =>
        simp only [readGo, hs] at heq
        by_cases hline : line = []
        · rw [if_pos hline] at heq
          simp at heq
        · rw [if_neg hline] at heq
          simp at heq
      | some rc0 =>
        simp only [readGo, hs] at heq
        by_cases hline : line = []
        · rw [if_pos hline] at heq
          injection heq with ho hr2
          left
          rw [← hr2]
          exact ⟨rfl, hrst⟩
        · rw [if_neg hline] at heq
          injection heq with ho hr2
          left
          rw [← hr2]
          exact ⟨rfl, hrst⟩
    | false =>
      have hrl : rst.length < input.length := by
        have := splitLine_rest_lt input (by rw [hs])
        rw [hs] at this
        exact this
      simp only [readGo, hs] at heq
      by_cases hb : trimSpace line = []
      · rw [if_pos hb] at heq
        rcases ih rst rec rc r2 (by omega) heq with h | h
        · exact Or.inl h
        · exact Or.inr ⟨h.1, by omega⟩
      · rw [if_neg hb] at heq
        by_cases hh : (trimSpace line).head? = some '>'
        · rw [if_pos hh] at heq
          cases rec with
          | none =>
            rcases ih rst _ rc r2 (by omega) heq with h | h
            · exact Or.inl h
            · exact Or.inr ⟨h.1, by omega⟩
          | some rc0 =>
            injection heq with ho hr2
            right
            rw [← hr2]
            exact ⟨rfl, hrl⟩
        · rw [if_neg hh] at heq
          cases rec with
          | none => simp at heq
          | some rc0 =>
            rcases ih rst _ rc r2 (by omega) heq with h | h
            · exact Or.inl h
            · exact Or.inr ⟨h.1, by omega⟩

theorem read_measure {r r2 : Reader} {rc : Record}
    (h : Reader.read r = (ReadOutcome.ok (some rc) none, r2)) :
    measureR r2 < measureR r := by
  obtain ⟨input, err, rec⟩ := r
  cases err with
  | true =>
    rw [read_err _ rfl] at h
    simp at h
  | false =>
    rw [read_not_err] at h
    rcases readGo_continue _ _ _ _ _ (by omega) h with ⟨h1, h2⟩ | ⟨h1, h2⟩
    · simp [measureR, h1, h2]
    · simp [measureR, h1]
      omega

theorem readAllGo_fuel (f : Nat) : ∀ (g : Nat) (r : Reader), measureR r < f →
    measureR r < g → readAllGo f r = readAllGo g r := by
  induction f with
  | zero => exact fun g r hf _ => absurd hf (by omega)
  | succ f ih =>
    intro g r hf hg
    cases g with
    | zero => exact absurd hg (by omega)
    | succ g =>
      simp only [readAllGo]
      rcases hr : Reader.read r with ⟨o, r2⟩
      rcases o with ⟨orec, oerr⟩ | _
      · rcases orec with _ | rc
        · rfl
        · rcases oerr with _ | e
          · have hm : measureR r2 < measureR r := read_measure hr
            exact congrArg (rc :: ·) (ih g r2 (by omega) (by omega))
          · rfl
      · rfl

theorem readAll_eq (r : Reader) : readAll r =
    match Reader.read r with
    | (ReadOutcome.ok (some rc) none, r2) => rc :: readAll r2
    | _ => [] := by
  have hb : measureR r ≤ r.input.length + 1 := by
    rw [measureR]
    split <;> omega
  rw [readAll, show r.input.length + 2 = (r.input.length + 1) + 1 from rfl]
  simp only [readAllGo]
  rcases hr : Reader.read r with ⟨o, r2⟩
  rcases o with ⟨orec, oerr⟩ | _
  · rcases orec with _ | rc
    · rfl
    · rcases oerr with _ | e
      · have hm : measureR r2 < measureR r := read_measure hr
        have hb2 : measureR r2 ≤ r2.input.length + 1 := by
          rw [measureR]
          split <;> omega
        show rc :: readAllGo (r.input.length + 1) r2 = rc :: readAll r2
        rw [readAll]
        exact congrArg (rc :: ·) (readAllGo_fuel _ _ _ (by omega) (by omega))
      · rfl
  · rfl

/-! ### One-line stepping corollaries -/

theorem read_step_blank (l T : List Char) (rec : Option Record) (hl : '\n' ∉ l)
    (hb : trimSpace l = []) :
    Reader.read (Reader.mk (l ++ '\n' :: T) false rec) =
      Reader.read (Reader.mk T false rec) := by
  rw [read_step _ _ _ hl, if_pos hb]

theorem read_step_header_none (l T : List Char) (hl : '\n' ∉ l) (hb : trimSpace l ≠ [])
    (hh : (trimSpace l).head? = some '>') :
    Reader.read (Reader.mk (l ++ '\n' :: T) false none) =
      Reader.read (Reader.mk T false (some ⟨(trimSpace l).tail, []⟩)) := by
  rw [read_step _ _ _ hl, if_neg hb, if_pos hh]

theorem read_step_header_some (l T : List Char) (rc : Record) (hl : '\n' ∉ l)
    (hb : trimSpace l ≠ []) (hh : (trimSpace l).head? = some '>') :
    Reader.read (Reader.mk (l ++ '\n' :: T) false (some rc)) =
      (ReadOutcome.ok (some rc) none, Reader.mk T false (some ⟨(trimSpace l).tail, []⟩)) := by
  rw [read_step _ _ _ hl, if_neg hb, if_pos hh]

theorem read_step_data_none (l T : List Char) (hl : '\n' ∉ l) (hb : trimSpace l ≠ [])
    (hh : ¬(trimSpace l).head? = some '>') :
    Reader.read (Reader.mk (l ++ '\n' :: T) false none) =
      (ReadOutcome.ok none (some (RError.formatErr fmtMsg)), Reader.mk T false none) := by
  rw [read_step _ _ _ hl, if_neg hb, if_neg hh]

theorem read_step_data_some (l T : List Char) (rc : Record) (hl : '\n' ∉ l)
    (hb : trimSpace l ≠ []) (hh : ¬(trimSpace l).head? = some '>') :
    Reader.read (Reader.mk (l ++ '\n' :: T) false (some rc)) =
      Reader.read (Reader.mk T false (some ⟨rc.Header, rc.Sequence ++ trimSpace l⟩)) := by
  rw [read_step _ _ _ hl, if_neg hb, if_neg hh]

/-! ### Recursion helpers for `readAll` -/

theorem readAll_record {r r2 : Reader} {rc : Record}
    (h : Reader.read r = (ReadOutcome.ok (some rc) none, r2)) :
    readAll r = rc :: readAll r2 := by
  rw [readAll_eq, h]

theorem readAll_eq_of_read_eq {r r2 : Reader} (h : Reader.read r = Reader.read r2) :
    readAll r = readAll r2 := by
  rw [readAll_eq, readAll_eq, h]

theorem readAll_err {r : Reader} (h : r.err = true) : readAll r = [] := by
  rw [readAll_eq, read_err r h]

theorem readAll_stop {r r2 : Reader} {e : RError}
    (h : Reader.read r = (ReadOutcome.ok none (some e), r2)) : readAll r = [] := by
  rw [readAll_eq, h]

theorem readAll_nilnil {r r2 : Reader}
    (h : Reader.read r = (ReadOutcome.ok none none, r2)) : readAll r = [] := by
  rw [readAll_eq, h]

theorem readAll_crash {r r2 : Reader}
    (h : Reader.read r = (ReadOutcome.crash, r2)) : readAll r = [] := by
  rw [readAll_eq, h]

/-! ### The decoder agrees with the reference decoding `collect` -/

theorem collectK_congr (lines : List (List Char)) : ∀ (rec : Option Record)
    (k k2 : Option Record → List Record), (∀ x, k x = k2 x) →
    collectK lines rec k = collectK lines rec k2 := by
  induction lines with
  | nil => exact fun rec k k2 h => h rec
  | cons l rest ih =>
    intro rec k k2 h
    simp only [collectK]
    by_cases hb : trimSpace l = []
    · rw [if_pos hb, if_pos hb]
      exact ih rec k k2 h
    · rw [if_neg hb, if_neg hb]
      by_cases hh : (trimSpace l).head? = some '>'
      · rw [if_pos hh, if_pos hh]
        cases rec with
        | none => exact ih _ k k2 h
        | some rc => exact congrArg (rc :: ·) (ih _ k k2 h)
      · rw [if_neg hh, if_neg hh]
        cases rec with
        | none => rfl
        | some rc => exact ih _ k k2 h

theorem collect_eq_collectK (lines : List (List Char)) : ∀ (rec : Option Record),
    collect lines rec = collectK lines rec (fun x =>
      match x with
      | none => []
      | some rc => [rc]) := by
  induction lines with
  | nil => intro rec; cases rec <;> rfl
  | cons l rest ih =>
    intro rec
    simp only [collect, collectK]
    by_cases hb : trimSpace l = []
    · rw [if_pos hb, if_pos hb]
      exact ih rec
    · rw [if_neg hb, if_neg hb]
      by_cases hh : (trimSpace l).head? = some '>'
      · rw [if_pos hh, if_pos hh]
        cases rec with
        | none => exact ih _
        | some rc => exact congrArg (rc :: ·) (ih _)
      · rw [if_neg hh, if_neg hh]
        cases rec with
        | none => rfl
        | some rc => exact ih _

theorem readAll_render (lines : List (List Char)) : ∀ (rec : Option Record) (T : List Char),
    (∀ l ∈ lines, '\n' ∉ l) →
    readAll (Reader.mk (render lines ++ T) false rec) =
      collectK lines rec (fun x => readAll (Reader.mk T false x)) := by
  induction lines with
  | nil => intro rec T _; rfl
  | cons l rest ih =>
    intro rec T hnl
    have hl : '\n' ∉ l := hnl l (List.mem_cons_self l rest)
    have hrest : ∀ x ∈ rest, '\n' ∉ x := fun x hx => hnl x (List.mem_cons_of_mem l hx)
    have hr : render (l :: rest) ++ T = l ++ '\n' :: (render rest ++ T) := by
      simp [render, List.append_assoc]
    rw [hr]
    by_cases hb : trimSpace l = []
    · rw [readAll_eq_of_read_eq (read_step_blank l _ rec hl hb), ih rec T hrest]
      simp only [collectK]
      rw [if_pos hb]
    · by_cases hh : (trimSpace l).head? = some '>'
      · cases rec with
        | none =>
          rw [readAll_eq_of_read_eq (read_step_header_none l _ hl hb hh), ih _ T hrest]
          simp only [collectK]
          rw [if_neg hb, if_pos hh]
        | some rc =>
          rw [readAll_record (read_step_header_some l _ rc hl hb hh), ih _ T hrest]
          simp only [collectK]
          rw [if_neg hb, if_pos hh]
      · cases rec with
        | none =>
          rw [readAll_stop (read_step_data_none l _ hl hb hh)]
          simp only [collectK]
          rw [if_neg hb, if_neg hh]
        | some rc =>
          rw [readAll_eq_of_read_eq (read_step_data_some l _ rc hl hb hh), ih _ T hrest]
          simp only [collectK]
          rw [if_neg hb, if_neg hh]

theorem readAll_render_nil (lines : List (List Char)) (rec : Option Record)
    (hnl : ∀ l ∈ lines, '\n' ∉ l) :
    readAll (Reader.mk (render lines) false rec) = collect lines rec := by
  have h0 : render lines = render lines ++ [] := by simp
  rw [h0, readAll_render lines rec [] hnl, collect_eq_collectK]
  apply collectK_congr
  intro x
  cases x with
  | none => rfl
  | some rc => rfl

theorem collect_length (lines : List (List Char)) : ∀ (rec : Option Record),
    (rec = none → noLeadingData lines = true) →
    (collect lines rec).length =
      countHeaders lines + (match rec with | none => 0 | some _ => 1) := by
  induction lines with
  | nil =>
    intro rec h
    cases rec with
    | none => simp [collect, countHeaders]
    | some rc => simp [collect, countHeaders]
  | cons l rest ih =>
    intro rec h
    by_cases hb : trimSpace l = []
    · have hhl : isHeaderLine l = false := by
        simp [isHeaderLine, hb]
      have hcount : countHeaders (l :: rest) = countHeaders rest := by
        simp [countHeaders, List.filter_cons, hhl]
      have hnld : rec = none → noLeadingData rest = true := by
        intro hrec
        have := h hrec
        rw [noLeadingData, if_pos hb] at this
        exact this
      cases rec with
      | none =>
        simp only [collect]
        rw [if_pos hb, hcount]
        exact ih none hnld
      | some rc =>
        simp only [collect]
        rw [if_pos hb, hcount]
        exact ih (some rc) hnld
    · by_cases hh : (trimSpace l).head? = some '>'
      · have hhl : isHeaderLine l = true := by
          simp [isHeaderLine, hh]
        have hcount : countHeaders (l :: rest) = countHeaders rest + 1 := by
          simp [countHeaders, List.filter_cons, hhl]
        cases rec with
        | none =>
          simp only [collect]
          rw [if_neg hb, if_pos hh, hcount]
          have hx : (collect rest (some ⟨(trimSpace l).tail, []⟩)).length =
              countHeaders rest + 1 :=
            ih (some ⟨(trimSpace l).tail, []⟩) (fun hx => nomatch hx)
          show (collect rest (some ⟨(trimSpace l).tail, []⟩)).length =
            countHeaders rest + 1 + 0
          omega
        | some rc =>
          simp only [collect]
          rw [if_neg hb, if_pos hh, hcount]
          have hx : (collect rest (some ⟨(trimSpace l).tail, []⟩)).length =
              countHeaders rest + 1 :=
            ih (some ⟨(trimSpace l).tail, []⟩) (fun hx => nomatch hx)
          show (rc :: collect rest (some ⟨(trimSpace l).tail, []⟩)).length =
            countHeaders rest + 1 + 1
          simp only [List.length_cons]
          omega
      · have hhl : isHeaderLine l = false := by
          simp [isHeaderLine, hh]
        have hcount : countHeaders (l :: rest) = countHeaders rest := by
          simp [countHeaders, List.filter_cons, hhl]
        cases rec with
        | none =>
          exfalso
          have := h rfl
          rw [noLeadingData, if_neg hb] at this
          simp [hh] at this
        | some rc =>
          simp only [collect]
          rw [if_neg hb, if_neg hh, hcount]
          exact ih (some ⟨rc.Header, rc.Sequence ++ trimSpace l⟩) (fun hx => nomatch hx)

/-! ### Writer lemmas -/

theorem writeSeqAux_all (W : Int) (data : List Char) : ∀ (i : Int),
    0 < i → i + data.length ≤ W → writeSeqAux W data i = data := by
  induction data with
  | nil => intro i _ _; rfl
  | cons c rest ih =>
    intro i h0 hW
    simp only [List.length_cons] at hW
    push_cast at hW
    have htmod : i.tmod W = i := by
      rw [Int.tmod_eq_emod (by omega) (by omega)]
      exact Int.emod_eq_of_lt (by omega) (by omega)
    simp only [writeSeqAux, htmod, if_neg (show ¬(i = 0) by omega), List.nil_append]
    rw [ih (i + 1) (by omega) (by omega)]

theorem write_wide (w : Writer) (name data : List Char)
    (hW : (data.length : Int) ≤ w.width) (hd : data ≠ []) :
    (Writer.write w ⟨name, data⟩).1 = '>' :: name ++ '\n' :: (data ++ ['\n']) := by
  cases data with
  | nil => exact absurd rfl hd
  | cons c rest =>
    show '>' :: name ++ writeSeqAux w.width (c :: rest) 0 ++ ['\n'] = _
    simp only [List.length_cons] at hW
    push_cast at hW
    simp only [writeSeqAux, Int.zero_tmod, if_pos rfl]
    rw [show (0 : Int) + 1 = 1 from rfl,
      writeSeqAux_all w.width rest 1 (by omega) (by omega)]
    simp

theorem write_empty_out (name : List Char) (w : Writer) :
    (Writer.write w ⟨name, []⟩).1 = '>' :: name ++ ['\n'] ∧
    (Writer.write w ⟨name, []⟩).2 = name.length + 2 := by
  constructor
  · show '>' :: name ++ writeSeqAux w.width [] 0 ++ ['\n'] = _
    simp [writeSeqAux]
  · show ('>' :: name ++ writeSeqAux w.width [] 0 ++ ['\n']).length = _
    simp [writeSeqAux]

theorem writeSeqAux_spec (W : Int) (data : List Char) : ∀ (s : Nat),
    writeSeqAux W data (Int.ofNat s) =
      ((List.range data.length).map (fun (i : Nat) =>
        (if (Int.ofNat (s + i)).tmod W = 0 then ['\n'] else []) ++
          (data.drop i).take 1)).flatten := by
  induction data with
  | nil => intro s; rfl
  | cons c rest ih =>
    intro s
    simp only [writeSeqAux, List.length_cons, List.range_succ_eq_map, List.map_cons,
      List.flatten_cons, List.map_map]
    rw [show Int.ofNat s + 1 = Int.ofNat (s + 1) from rfl, ih (s + 1)]
    have h2 : ∀ i ∈ List.range rest.length,
        ((fun (i : Nat) =>
          (if (Int.ofNat (s + i)).tmod W = 0 then ['\n'] else []) ++
            ((c :: rest).drop i).take 1) ∘ (· + 1)) i =
        (fun (i : Nat) =>
          (if (Int.ofNat ((s + 1) + i)).tmod W = 0 then ['\n'] else []) ++
            (rest.drop i).take 1) i := by
      intro i _
      simp only [Function.comp_apply, List.drop_succ_cons]
      rw [show s + (i + 1) = (s + 1) + i by omega]
    rw [List.map_congr_left h2]
    simp [List.append_assoc]

theorem write_wrap (W : Int) (name data : List Char) :
    (Writer.write ⟨W⟩ ⟨name, data⟩).1 = '>' :: name ++ wrapSpec W data ++ ['\n'] := by
  show '>' :: name ++ writeSeqAux W data 0 ++ ['\n'] = _
  rw [show (0 : Int) = Int.ofNat 0 from rfl, writeSeqAux_spec W data 0, wrapSpec]
  simp only [Nat.zero_add]

/-! ### Reading a record out of an exhausted stream -/

theorem readAll_final (rc : Record) : readAll (Reader.mk [] false (some rc)) = [rc] := by
  rw [readAll_record ((read_empty (some rc)).trans rfl), readAll_err rfl]

/-! ### Claim theorems -/

/-- C1: the claim (and the doc comment at fasta.go:47-49) says `Read` always
returns exactly one of a record or an error, never a nil record with a nil
error.  The code violates this: on an empty stream (and on a stream of only
blank lines) the EOF branch returns `r.rec`, which is still `nil`, together
with a `nil` error.  This theorem evaluates the code at the failing inputs. -/
theorem read_nilnil_on_empty :
    Reader.read (NewReader []) = (ReadOutcome.ok none none, Reader.mk [] true none) ∧
    Reader.read (NewReader (("\n\n").toList)) =
      (ReadOutcome.ok none none, Reader.mk [] true none) := by
  exact ⟨rfl, rfl⟩

/-- C10: the claim says `Reader.Read` is total and never dereferences a nil
in-progress record when appending leftover unterminated bytes at EOF.  The
code violates this: on input consisting of data with no header and no final
line-break (here a single byte), `r.rec` is nil and
`r.rec.Sequence = append(...)` panics (modelled by `ReadOutcome.crash`).
The second conjunct shows the same EOF append succeeding when an
in-progress record exists. -/
theorem read_crash_no_header :
    Reader.read (NewReader (('A') :: [])) = (ReadOutcome.crash, Reader.mk [] false none) ∧
    Reader.read (Reader.mk (('X') :: ('Y') :: []) false (some ⟨('N') :: [], []⟩)) =
      (ReadOutcome.ok (some ⟨('N') :: [], ('X') :: ('Y') :: []⟩) none,
        Reader.mk [] true (some ⟨('N') :: [], ('X') :: ('Y') :: []⟩)) := by
  exact ⟨rfl, rfl⟩

/-- C5: the claim says every input whose first non-blank content is a data
line fails with the FormatError.  That holds when the offending line is
line-break-terminated (second conjunct, which also checks the message), but
the code violates the claim on the unterminated input consisting only of
the data line, where it crashes on the nil in-progress record instead of
returning the FormatError (first conjunct). -/
theorem read_leading_data :
    Reader.read (NewReader (("AAA").toList)) = (ReadOutcome.crash, Reader.mk [] false none) ∧
    Reader.read (NewReader (("AAA\n>Seq1\nBBB\n").toList)) =
      (ReadOutcome.ok none (some (RError.formatErr fmtMsg)),
        Reader.mk ((">Seq1\nBBB\n").toList) false none) ∧
    fmtMsg = ("fasta: format error: sequence before header" : String) := by
  exact ⟨rfl, rfl, rfl⟩

/-- C4 counterexample: the claim says a record with empty data is written as
the header plus TWO line-breaks (one before the empty data, one trailing).
The code writes only ONE line-break: the loop emitting the pre-data break
never runs for empty data.  Writing `{Header: "A", Sequence: ""}` yields
exactly `">A\n"` (3 bytes), which contains a single `'\n'`. -/
theorem write_empty_data_cex :
    Writer.write (NewWriter 5) ⟨('A') :: [], []⟩ = (('>') :: ('A') :: '\n' :: [], 3) ∧
    (('>') :: ('A') :: '\n' :: []).count '\n' = 1 := by
  exact ⟨rfl, rfl⟩

/-- C4 amended: for every sequence with empty data, `Writer.Write` emits
exactly the marker `'>'`, the name, and ONE trailing line-break — no
line-break is emitted before the (empty) data, since the per-residue loop
that writes the leading break never runs — and reports
`name length + 2` bytes written. -/
theorem write_empty_data (name : List Char) (w : Writer) :
    (Writer.write w ⟨name, []⟩).1 = '>' :: name ++ ['\n'] ∧
    (Writer.write w ⟨name, []⟩).2 = name.length + 2 :=
  write_empty_out name w

/-- C8: `NewWriter` coerces width 0 to 1; the two concrete encodings from
the claim; and in general `Writer.Write` emits `'>'`, the name, then the
data with a line-break immediately before the byte at every position `i`
with `i mod width = 0` (so one right after the header), then one final
line-break (`wrapSpec` is that spec-side description). -/
theorem write_wrapping :
    (NewWriter 0).width = 1 ∧
    (Writer.write (NewWriter 2) ⟨("Seq1").toList, ("AAABBB").toList⟩).1 =
      (">Seq1\nAA\nAB\nBB\n").toList ∧
    (Writer.write (NewWriter 0) ⟨("Seq1").toList, ("AAABBB").toList⟩).1 =
      (">Seq1\nA\nA\nA\nB\nB\nB\n").toList ∧
    ∀ (name data : List Char) (W : Int),
      (Writer.write ⟨W⟩ ⟨name, data⟩).1 = '>' :: name ++ wrapSpec W data ++ ['\n'] :=
  ⟨rfl, by decide, by decide, fun name data W => write_wrap W name data⟩

/-- C3: for well-formed input — `'\n'`-free lines, each terminated by a
line-break, whose first non-blank line is a header — reading all records
yields exactly `countHeaders lines` records, namely the reference decoding
`collect`, which produces one record per header line in input order and
accumulates each record's data as the concatenation of its
whitespace-trimmed data lines with no separator bytes. -/
theorem read_decodes_records (lines : List (List Char))
    (hnl : ∀ l ∈ lines, '\n' ∉ l) (hwf : noLeadingData lines = true) :
    readAll (NewReader (render lines)) = collect lines none ∧
    (readAll (NewReader (render lines))).length = countHeaders lines := by
  have h1 : readAll (NewReader (render lines)) = collect lines none :=
    readAll_render_nil lines none hnl
  refine ⟨h1, ?_⟩
  rw [h1]
  have h2 : (collect lines none).length = countHeaders lines + 0 :=
    collect_length lines none (fun _ => hwf)
  omega

/-- C3 witness: a concrete two-record input. -/
theorem read_decodes_records_witness :
    readAll (NewReader (render [(">A").toList, ("xx").toList, ("").toList,
      (">B").toList, ("yy").toList])) =
      collect [(">A").toList, ("xx").toList, ("").toList, (">B").toList,
        ("yy").toList] none ∧
    (readAll (NewReader (render [(">A").toList, ("xx").toList, ("").toList,
      (">B").toList, ("yy").toList]))).length =
      countHeaders [(">A").toList, ("xx").toList, ("").toList, (">B").toList,
        ("yy").toList] :=
  read_decodes_records _ (by decide) (by decide)

/-- C7 counterexample: the claim says trailing whitespace on an unterminated
last line is stripped like on every other line, so the decode equals the
newline-terminated decode.  The code appends the leftover bytes verbatim:
`">A\nX "` decodes to data `"X "` while `">A\nX \n"` decodes to `"X"`. -/
theorem read_unterminated_cex :
    readAll (NewReader ((">A\nX ").toList)) = [⟨('A') :: [], ('X') :: ' ' :: []⟩] ∧
    readAll (NewReader ((">A\nX \n").toList)) = [⟨('A') :: [], ('X') :: []⟩] ∧
    (⟨('A') :: [], ('X') :: ' ' :: []⟩ : Record) ≠ ⟨('A') :: [], ('X') :: []⟩ := by
  exact ⟨by decide, by decide, by decide⟩

/-- C7 amended: for input ending without a final line-break, decoding yields
the same records as the newline-terminated input, provided the final
unterminated line is non-blank, free of leading and trailing whitespace,
and does not begin with `'>'` (the code appends the unterminated last line
verbatim, without the whitespace-trimming applied to terminated lines). -/
theorem read_unterminated_eq (lines : List (List Char)) (last : List Char)
    (h1 : ∀ l ∈ lines, '\n' ∉ l) (h2 : '\n' ∉ last) (h3 : last ≠ [])
    (h4 : trimSpace last = last) (h5 : last.head? ≠ some '>') :
    readAll (NewReader (render lines ++ last)) =
      readAll (NewReader (render lines ++ (last ++ ['\n']))) := by
  have hb : trimSpace last ≠ [] := by rw [h4]; exact h3
  have hh : ¬(trimSpace last).head? = some '>' := by rw [h4]; exact h5
  show readAll (Reader.mk (render lines ++ last) false none) =
    readAll (Reader.mk (render lines ++ (last ++ ['\n'])) false none)
  rw [readAll_render lines none last h1, readAll_render lines none (last ++ ['\n']) h1]
  apply collectK_congr
  intro x
  cases x with
  | none =>
    show readAll (Reader.mk last false none) =
      readAll (Reader.mk (last ++ ['\n']) false none)
    rw [readAll_crash ((read_last_line last none h2 h3).trans rfl),
      readAll_stop (read_step_data_none last [] h2 hb hh)]
  | some rc =>
    show readAll (Reader.mk last false (some rc)) =
      readAll (Reader.mk (last ++ ['\n']) false (some rc))
    rw [readAll_record ((read_last_line last (some rc) h2 h3).trans rfl), readAll_err rfl,
      readAll_eq_of_read_eq (read_step_data_some last [] rc h2 hb hh)]
    show _ = readAll (Reader.mk [] false (some ⟨rc.Header, rc.Sequence ++ trimSpace last⟩))
    rw [h4, readAll_final]

/-- C7 witness: `">A\nX"` decodes like `">A\nX\n"`. -/
theorem read_unterminated_eq_witness :
    readAll (NewReader (render [(">A").toList] ++ ("X").toList)) =
      readAll (NewReader (render [(">A").toList] ++ (("X").toList ++ ['\n']))) :=
  read_unterminated_eq _ _ (by decide) (by decide) (by decide) (by decide) (by decide)

/-- A list with no trailing whitespace has a non-whitespace last character. -/
theorem getLast_false_of_trimRight_eq {name : List Char} (h : trimRight name = name) :
    ∀ c, name.getLast? = some c → isSpace c = false := by
  intro c hc
  have h2 : name.reverse.dropWhile isSpace = name.reverse := by
    have h3 := congrArg List.reverse h
    rwa [trimRight, List.reverse_reverse] at h3
  cases hrev : name.reverse with
  | nil =>
    rw [← List.head?_reverse, hrev] at hc
    simp at hc
  | cons a t =>
    rw [← List.head?_reverse, hrev, List.head?_cons, Option.some.injEq] at hc
    subst hc
    rw [hrev, List.dropWhile_cons] at h2
    by_contra hp
    rw [if_pos (by simpa using hp)] at h2
    have h4 := congrArg List.length h2
    have h5 : (t.dropWhile isSpace).length ≤ t.length :=
      (List.dropWhile_sublist isSpace).length_le
    simp at h4
    omega

/-- C2 counterexample: the record `{Header: "N", Sequence: " A"}` encoded
with width 2 (≥ its data length) decodes to data `"A"`: the decoder trims
the leading space, so the round-trip record differs from the original. -/
theorem roundtrip_cex :
    (((' ' :: 'A' :: [] : List Char).length : Int) ≤ 2) ∧
    readAll (NewReader (Writer.write (NewWriter 2) ⟨('N') :: [], ' ' :: 'A' :: []⟩).1) =
      [⟨('N') :: [], ('A') :: []⟩] ∧
    ([⟨('N') :: [], ('A') :: []⟩] : List Record) ≠ [⟨('N') :: [], ' ' :: 'A' :: []⟩] := by
  exact ⟨by decide, by decide, by decide⟩

/-- C2 amended: the round-trip holds for every record whose name contains
no line-break and no trailing whitespace, and whose data contains no
line-break, no leading or trailing whitespace, and does not begin with
`'>'`: encoding with `NewWriter W` for any `W ≥` the data length and then
decoding yields exactly one record identical to the original. -/
theorem roundtrip_clean (name data : List Char) (W : Int)
    (hW : (data.length : Int) ≤ W)
    (hn1 : '\n' ∉ name) (hn2 : trimRight name = name)
    (hd1 : '\n' ∉ data) (hd2 : trimSpace data = data) (hd3 : data.head? ≠ some '>') :
    readAll (NewReader (Writer.write (NewWriter W) ⟨name, data⟩).1) = [⟨name, data⟩] := by
  have hhdr : trimSpace ('>' :: name) = '>' :: name :=
    trimSpace_header name (getLast_false_of_trimRight_eq hn2)
  have hhdr_ne : trimSpace ('>' :: name) ≠ [] := by
    rw [hhdr]
    simp
  have hhdr_hd : (trimSpace ('>' :: name)).head? = some '>' := by
    rw [hhdr]
    rfl
  have hnm : '\n' ∉ '>' :: name := by
    simp only [List.mem_cons, not_or]
    exact ⟨by decide, hn1⟩
  by_cases hd0 : data = []
  · subst hd0
    rw [(write_empty_out name (NewWriter W)).1,
      show '>' :: name ++ ['\n'] = ('>' :: name) ++ '\n' :: [] by simp]
    show readAll (Reader.mk (('>' :: name) ++ '\n' :: []) false none) = _
    rw [readAll_eq_of_read_eq (read_step_header_none ('>' :: name) [] hnm hhdr_ne hhdr_hd),
      hhdr]
    simp only [List.tail_cons]
    exact readAll_final _
  · have hlen1 : 1 ≤ data.length := by
      cases data with
      | nil => exact absurd rfl hd0
      | cons c cs => simp
    have hW0 : W ≠ 0 := by
      intro h0
      rw [h0] at hW
      omega
    have hwidth : (NewWriter W).width = W := by
      rw [NewWriter, if_neg hW0]
    rw [write_wide (NewWriter W) name data (by rw [hwidth]; exact hW) hd0,
      show '>' :: name ++ '\n' :: (data ++ ['\n']) =
        ('>' :: name) ++ '\n' :: (data ++ '\n' :: []) by simp]
    show readAll (Reader.mk (('>' :: name) ++ '\n' :: (data ++ '\n' :: [])) false none) = _
    rw [readAll_eq_of_read_eq
        (read_step_header_none ('>' :: name) _ hnm hhdr_ne hhdr_hd), hhdr]
    simp only [List.tail_cons]
    have hbd : trimSpace data ≠ [] := by
      rw [hd2]
      exact hd0
    have hhd : ¬(trimSpace data).head? = some '>' := by
      rw [hd2]
      exact hd3
    rw [readAll_eq_of_read_eq (read_step_data_some data [] ⟨name, []⟩ hd1 hbd hhd)]
    show readAll (Reader.mk [] false (some ⟨name, [] ++ trimSpace data⟩)) = _
    rw [hd2, List.nil_append]
    exact readAll_final _

/-- C2 witness: the record `{Header: "S", Sequence: "AB"}` with width 5. -/
theorem roundtrip_clean_witness :
    readAll (NewReader (Writer.write (NewWriter 5) ⟨('S') :: [], 'A' :: 'B' :: []⟩).1) =
      [⟨('S') :: [], 'A' :: 'B' :: []⟩] :=
  roundtrip_clean _ _ 5 (by decide) (by decide) (by decide) (by decide) (by decide)
    (by decide)

/-- C6: once the decoder reaches end-of-input and hands out the final
record, the code sets the sticky `r.err = io.EOF` flag; the second conjunct
shows that whenever the reading loop leaves that flag set it returned the
in-progress record `r.rec` with nil error and consumed the whole input.
From any such ended state, every later call (the first conjunct, for every
`n`) leaves the state unchanged and returns no record with the EOF signal:
the ended state is terminal and absorbing. -/
theorem read_sticky_eof :
    (∀ (r : Reader), r.err = true → ∀ (n : Nat),
      readStateN n r = r ∧
      Reader.read (readStateN n r) = (ReadOutcome.ok none (some RError.eof), r)) ∧
    (∀ (f : Nat) (input : List Char) (rec : Option Record), input.length < f →
      (readGo f input rec).2.err = true →
      (readGo f input rec).1 = ReadOutcome.ok (readGo f input rec).2.irec none ∧
      (readGo f input rec).2.input = []) := by
  constructor
  · intro r h n
    induction n with
    | zero => exact ⟨rfl, read_err r h⟩
    | succ n ih =>
      have h2 : (Reader.read r).2 = r := by rw [read_err r h]
      constructor
      · show readStateN n (Reader.read r).2 = r
        rw [h2]
        exact ih.1
      · show Reader.read (readStateN n (Reader.read r).2) = _
        rw [h2]
        exact ih.2
  · intro f
    induction f with
    | zero => intro input rec hf _; exact absurd hf (by omega)
    | succ f ih =>
      intro input rec hf herr
      rcases hs : splitLine input with ⟨line, rst, eofb⟩
      cases eofb with
      | true =>
        rcases splitLine_eof input (by rw [hs]) with ⟨h1, _⟩
        rw [hs] at h1
        simp only [Prod.mk.injEq] at h1
        obtain ⟨-, hrst, -⟩ := h1
        cases rec with
        | none =>
          by_cases hline : line = []
          · simp only [readGo, hs, if_pos hline] at herr ⊢
            exact ⟨trivial, hrst⟩
          · simp only [readGo, hs, if_neg hline] at herr
            simp at herr
        | some rc =>
          by_cases hline : line = []
          · simp only [readGo, hs, if_pos hline] at herr ⊢
            exact ⟨trivial, hrst⟩
          · simp only [readGo, hs, if_neg hline] at herr ⊢
            exact ⟨trivial, hrst⟩
      | false =>
        have hrl : rst.length < input.length := by
          have hx := splitLine_rest_lt input (by rw [hs])
          rw [hs] at hx
          exact hx
        by_cases hb : trimSpace line = []
        · simp only [readGo, hs, if_pos hb] at herr ⊢
          exact ih rst rec (by omega) herr
        · by_cases hh : (trimSpace line).head? = some '>'
          · cases rec with
            | none =>
              simp only [readGo, hs, if_neg hb, if_pos hh] at herr ⊢
              exact ih rst _ (by omega) herr
            | some rc =>
              simp only [readGo, hs, if_neg hb, if_pos hh] at herr
              simp at herr
          · cases rec with
            | none =>
              simp only [readGo, hs, if_neg hb, if_neg hh] at herr
              simp at herr
            | some rc =>
              simp only [readGo, hs, if_neg hb, if_neg hh] at herr ⊢
              exact ih rst _ (by omega) herr

/-- C6 witness: the ended state after reading `">A\n"` is absorbing. -/
theorem read_sticky_eof_witness :
    (readStateN 3 (Reader.mk [] true none) = Reader.mk [] true none ∧
      Reader.read (readStateN 3 (Reader.mk [] true none)) =
        (ReadOutcome.ok none (some RError.eof), Reader.mk [] true none)) ∧
    ((readGo 4 ((">A\n").toList) none).1 =
      ReadOutcome.ok (readGo 4 ((">A\n").toList) none).2.irec none ∧
    (readGo 4 ((">A\n").toList) none).2.input = []) :=
  ⟨read_sticky_eof.1 (Reader.mk [] true none) rfl 3,
    read_sticky_eof.2 4 ((">A\n").toList) none (by decide) (by decide)⟩

/-- If the tail of a list ends in `c`, so does the list. -/
theorem getLast_tail {t : List Char} {c : Char} (h : t.tail.getLast? = some c) :
    t.getLast? = some c := by
  cases t with
  | nil => simp at h
  | cons a t2 =>
    rw [List.tail_cons] at h
    rw [List.getLast?_cons, h]
    rfl

/-- Invariant carried by the reading loop: every record it returns and the
in-progress record it leaves behind have a header with no embedded
line-break and no trailing whitespace, and data with no embedded
line-break. -/
theorem readGo_inv (f : Nat) : ∀ (input : List Char) (rec : Option Record),
    input.length < f →
    (∀ rc0, rec = some rc0 → '\n' ∉ rc0.Header ∧
      (∀ c, rc0.Header.getLast? = some c → isSpace c = false) ∧ '\n' ∉ rc0.Sequence) →
    (∀ rc r2, readGo f input rec = (ReadOutcome.ok (some rc) none, r2) →
      '\n' ∉ rc.Header ∧ (∀ c, rc.Header.getLast? = some c → isSpace c = false) ∧
        '\n' ∉ rc.Sequence) ∧
    (∀ o r2 rc2, readGo f input rec = (o, r2) → r2.irec = some rc2 →
      '\n' ∉ rc2.Header ∧ (∀ c, rc2.Header.getLast? = some c → isSpace c = false) ∧
        '\n' ∉ rc2.Sequence) := by
  induction f with
  | zero => intro input rec hf _; exact absurd hf (by omega)
  | succ f ih =>
    intro input rec hf hinv
    rcases hs : splitLine input with ⟨line, rst, eofb⟩
    cases eofb with
    | true =>
      rcases splitLine_eof input (by rw [hs]) with ⟨h1, hnotin⟩
      rw [hs] at h1
      simp only [Prod.mk.injEq] at h1
      obtain ⟨hline_eq, -, -⟩ := h1
      have hlinenl : '\n' ∉ line := hline_eq ▸ hnotin
      cases rec with
      | none =>
        by_cases hline : line = []
        · constructor
          · intro rc r2 heq
            simp only [readGo, hs, if_pos hline] at heq
            simp at heq
          · intro o r2 rc2 heq hirec
            simp only [readGo, hs, if_pos hline] at heq
            injection heq with ho hr2
            rw [← hr2] at hirec
            simp at hirec
        · constructor
          · intro rc r2 heq
            simp only [readGo, hs, if_neg hline] at heq
            simp at heq
          · intro o r2 rc2 heq hirec
            simp only [readGo, hs, if_neg hline] at heq
            injection heq with ho hr2
            rw [← hr2] at hirec
            simp at hirec
      | some rc0 =>
        have hrc0 := hinv rc0 rfl
        have happ : '\n' ∉ rc0.Header ∧
            (∀ c, rc0.Header.getLast? = some c → isSpace c = false) ∧
            '\n' ∉ rc0.Sequence ++ line := by
          refine ⟨hrc0.1, hrc0.2.1, ?_⟩
          rw [List.mem_append]
          rintro (hc | hc)
          · exact hrc0.2.2 hc
          · exact hlinenl hc
        by_cases hline : line = []
        · constructor
          · intro rc r2 heq
            simp only [readGo, hs, if_pos hline] at heq
            injection heq with ho hr2
            injection ho with ho1 ho2
            injection ho1 with ho1
            rw [← ho1]
            exact hrc0
          · intro o r2 rc2 heq hirec
            simp only [readGo, hs, if_pos hline] at heq
            injection heq with ho hr2
            have hsome : some rc0 = some rc2 := by
              rw [← hr2] at hirec
              exact hirec
            injection hsome with hsome
            rw [← hsome]
            exact hrc0
        · constructor
          · intro rc r2 heq
            simp only [readGo, hs, if_neg hline] at heq
            injection heq with ho hr2
            injection ho with ho1 ho2
            injection ho1 with ho1
            rw [← ho1]
            exact happ
          · intro o r2 rc2 heq hirec
            simp only [readGo, hs, if_neg hline] at heq
            injection heq with ho hr2
            have hsome : some (⟨rc0.Header, rc0.Sequence ++ line⟩ : Record) = some rc2 := by
              rw [← hr2] at hirec
              exact hirec
            injection hsome with hsome
            rw [← hsome]
            exact happ
    | false =>
      have hrl : rst.length < input.length := by
        have hx := splitLine_rest_lt input (by rw [hs])
        rw [hs] at hx
        exact hx
      rcases splitLine_not_eof input (by rw [hs]) with ⟨l0, hl0, -, hsplit2⟩
      rw [hs] at hsplit2
      simp only [Prod.mk.injEq] at hsplit2
      obtain ⟨hline_eq, -, -⟩ := hsplit2
      have htnl : '\n' ∉ trimSpace line := by
        rw [hline_eq, trimSpace_append_nl]
        intro hmem
        exact hl0 (mem_of_mem_trimSpace hmem)
      have hheader : ∀ rc0, (some ⟨(trimSpace line).tail, ([] : List Char)⟩ :
          Option Record) = some rc0 →
          '\n' ∉ rc0.Header ∧
          (∀ c, rc0.Header.getLast? = some c → isSpace c = false) ∧
          '\n' ∉ rc0.Sequence := by
        intro rc0 h0
        injection h0 with h0
        rw [← h0]
        refine ⟨?_, ?_, by simp⟩
        · intro hmem
          exact htnl (List.mem_of_mem_tail hmem)
        · intro c hc
          exact trimSpace_getLast (getLast_tail hc)
      by_cases hb : trimSpace line = []
      · have hx := ih rst rec (by omega) hinv
        constructor
        · intro rc r2 heq
          simp only [readGo, hs, if_pos hb] at heq
          exact hx.1 rc r2 heq
        · intro o r2 rc2 heq hirec
          simp only [readGo, hs, if_pos hb] at heq
          exact hx.2 o r2 rc2 heq hirec
      · by_cases hh : (trimSpace line).head? = some '>'
        · cases rec with
          | none =>
            have hx := ih rst _ (by omega) hheader
            constructor
            · intro rc r2 heq
              simp only [readGo, hs, if_neg hb, if_pos hh] at heq
              exact hx.1 rc r2 heq
            · intro o r2 rc2 heq hirec
              simp only [readGo, hs, if_neg hb, if_pos hh] at heq
              exact hx.2 o r2 rc2 heq hirec
          | some rc0 =>
            constructor
            · intro rc r2 heq
              simp only [readGo, hs, if_neg hb, if_pos hh] at heq
              injection heq with ho hr2
              injection ho with ho1 ho2
              injection ho1 with ho1
              rw [← ho1]
              exact hinv rc0 rfl
            · intro o r2 rc2 heq hirec
              simp only [readGo, hs, if_neg hb, if_pos hh] at heq
              injection heq with ho hr2
              refine hheader rc2 ?_
              rw [← hr2] at hirec
              exact hirec
        · cases rec with
          | none =>
            constructor
            · intro rc r2 heq
              simp only [readGo, hs, if_neg hb, if_neg hh] at heq
              simp at heq
            · intro o r2 rc2 heq hirec
              simp only [readGo, hs, if_neg hb, if_neg hh] at heq
              injection heq with ho hr2
              rw [← hr2] at hirec
              simp at hirec
          | some rc0 =>
            have hrc0 := hinv rc0 rfl
            have happ : ∀ rcx, (some ⟨rc0.Header, rc0.Sequence ++ trimSpace line⟩ :
                Option Record) = some rcx →
                '\n' ∉ rcx.Header ∧
                (∀ c, rcx.Header.getLast? = some c → isSpace c = false) ∧
                '\n' ∉ rcx.Sequence := by
              intro rcx h0
              injection h0 with h0
              rw [← h0]
              refine ⟨hrc0.1, hrc0.2.1, ?_⟩
              rw [List.mem_append]
              rintro (hc | hc)
              · exact hrc0.2.2 hc
              · exact htnl hc
            have hx := ih rst _ (by omega) happ
            constructor
            · intro rc r2 heq
              simp only [readGo, hs, if_neg hb, if_neg hh] at heq
              exact hx.1 rc r2 heq
            · intro o r2 rc2 heq hirec
              simp only [readGo, hs, if_neg hb, if_neg hh] at heq
              exact hx.2 o r2 rc2 heq hirec

/-- The loop invariant lifted to repeated reads. -/
theorem readAll_inv (n : Nat) : ∀ (r : Reader), measureR r < n →
    (∀ rc0, r.irec = some rc0 → '\n' ∉ rc0.Header ∧
      (∀ c, rc0.Header.getLast? = some c → isSpace c = false) ∧ '\n' ∉ rc0.Sequence) →
    ∀ rec ∈ readAll r,
      '\n' ∉ rec.Header ∧ (∀ c, rec.Header.getLast? = some c → isSpace c = false) ∧
        '\n' ∉ rec.Sequence := by
  induction n with
  | zero => intro r hm; exact absurd hm (by omega)
  | succ n ih =>
    intro r hm hinv rec hmem
    rw [readAll_eq] at hmem
    rcases hr : Reader.read r with ⟨o, r2⟩
    rw [hr] at hmem
    rcases o with ⟨orec, oerr⟩ | _
    · rcases orec with _ | rc
      · simp at hmem
      · rcases oerr with _ | e
        · obtain ⟨input, err, irec⟩ := r
          cases err with
          | true =>
            rw [read_err _ rfl] at hr
            simp at hr
          | false =>
            rw [read_not_err] at hr
            have hgo := readGo_inv (input.length + 1) input irec (by omega) hinv
            rcases List.mem_cons.mp hmem with hcase | hcase
            · rw [hcase]
              exact hgo.1 rc r2 hr
            · have hm2 : measureR r2 < measureR (Reader.mk input false irec) :=
                read_measure (by rw [read_not_err]; exact hr)
              exact ih r2 (by omega) (fun rc0 h0 => hgo.2 _ r2 rc0 hr h0) rec hcase
        · simp at hmem
    · simp at hmem

/-- C9 counterexample: the claim says every record handed to the caller has
a non-empty name.  The header line `">"` is legal and produces a record
whose name is empty: decoding `">\nA\n"` hands out such a record. -/
theorem record_invariant_cex :
    readAll (NewReader ((">\nA\n").toList)) = [⟨[], ('A') :: []⟩] ∧
    (readAll (NewReader ((">\nA\n").toList))).all (fun rc => !rc.Header.isEmpty) = false := by
  exact ⟨by decide, by decide⟩

/-- C9 amended: every record handed to the caller by `Reader.Read` — on any
input whatsoever — has a possibly-empty name (the header text may itself be
empty) with no embedded line-break and no trailing whitespace, and
zero-or-more bytes of data with no embedded line-break. -/
theorem record_invariant (input : List Char) :
    ∀ rec ∈ readAll (NewReader input),
      '\n' ∉ rec.Header ∧ (∀ c, rec.Header.getLast? = some c → isSpace c = false) ∧
        '\n' ∉ rec.Sequence :=
  fun rec hmem =>
    readAll_inv (measureR (NewReader input) + 1) (NewReader input) (by omega)
      (fun rc0 h0 => nomatch h0) rec hmem

/-- C9 witness: the record decoded from `">A\nX\n"`. -/
theorem record_invariant_witness :
    '\n' ∉ (⟨('A') :: [], ('X') :: []⟩ : Record).Header ∧
    (∀ c, (⟨('A') :: [], ('X') :: []⟩ : Record).Header.getLast? = some c →
      isSpace c = false) ∧
    '\n' ∉ (⟨('A') :: [], ('X') :: []⟩ : Record).Sequence :=
  record_invariant ((">A\nX\n").toList) ⟨('A') :: [], ('X') :: []⟩ (by decide)

end Fasta
